import Mathlib

/-
Verification development for the yt_enhancer subtitle pipeline
(package gemini, pkg/models, pkg/subtitle).

The definitions below are a shallow embedding of the Go source:
pure computations become Lean functions, the HTTP call of `processBatch`
is replaced by an oracle giving the decoded candidate array for each
batch (keyed by the batch's start index, since the request is a pure
function of the batch slice), and the unbounded `for` loop of
`CreateSubtitles` becomes a fuel-indexed recursion returning `none`
when the fuel runs out.  Go `int` millisecond values are modelled as
`Int`; word indices (`id`, `st_id`, slice indices) are modelled as
`Nat` (in Go they index slices, where a negative value panics).
-/

namespace YtEnhancer

/-- Word-level timing entry (models.WordTiming): global index `ID`,
word text, and `start_ms`. -/
structure WordTiming where
  ID : Nat
  Word : String
  StartTime : Int
deriving DecidableEq

/-- Final subtitle block (models.Subtitle): `start_ms`, `end_ms`, text. -/
structure Subtitle where
  StartMs : Int
  EndMs : Int
  Text : String
deriving DecidableEq

/-- Decoded candidate from the service response (models.SubtitleInput):
`st_id`, `st_ms`, `lw_ms`, `text`, `incomplete`. -/
structure SubtitleInput where
  StartWordIndex : Nat
  StartMs : Int
  LastWordStartMs : Int
  Text : String
  Incomplete : Bool
deriving DecidableEq

/-- The fixed batch size of `CreateSubtitles` (`batchSize := 300`). -/
def batchSize : Nat := 300

/-- Body of the `for i, sub := range inputSubtitles` loop of
`processSubtitles`: computes `endMs` for one candidate given the
following candidate of the same batch (if any), mirroring the Go code
line by line (tentative `lw_ms + 1500` when `lw_ms > 0`, clamp to
`next.st_ms - 100` when `endMs == 0 || nextStart < endMs`, and the
final minimum-duration fallback `st_ms + 1000`). -/
def processOne (sub : SubtitleInput) (next? : Option SubtitleInput) : Subtitle :=
  let endMs : Int := 0
  let endMs : Int := if sub.LastWordStartMs > 0 then sub.LastWordStartMs + 1500 else endMs
  let endMs : Int :=
    match next? with
    | some nxt =>
      let nextStart := nxt.StartMs - 100
      if endMs = 0 ∨ nextStart < endMs then nextStart else endMs
    | none => endMs
  let endMs : Int :=
    if endMs ≤ sub.StartMs ∨ endMs - sub.StartMs < 1000 then sub.StartMs + 1000 else endMs
  { StartMs := sub.StartMs, EndMs := endMs, Text := sub.Text }

/-- The per-batch Timing Reconciler `processSubtitles`: one output
subtitle per input candidate, with the end time computed by
`processOne` from the candidate and its successor in the batch. -/
def processSubtitles : List SubtitleInput → List Subtitle
  | [] => []
  | sub :: rest => processOne sub rest.head? :: processSubtitles rest

/-- The `lastWordIndex` computation of `parseBatchResponse`
(lines 309-316): the `st_id` of the last candidate, or the batch's own
`startIndex` when the candidate array is empty. -/
def parseLastWordIndex (subtitleInputs : List SubtitleInput) (startIndex : Nat) : Nat :=
  match subtitleInputs.getLast? with
  | some s => s.StartWordIndex
  | none => startIndex

/-- Result of `parseBatchResponse` after the JSON of the response has
been decoded into a candidate array: the reconciled subtitles and the
last processed word index. -/
def parseBatchResponse (subtitleInputs : List SubtitleInput) (startIndex : Nat) :
    List Subtitle × Nat :=
  (processSubtitles subtitleInputs, parseLastWordIndex subtitleInputs startIndex)

/-- The Track Assembler's global monotonicity pass at the end of
`CreateSubtitles` (lines 104-112): walking left to right, whenever an
earlier subtitle's `EndMs` exceeds the next subtitle's `StartMs`, the
earlier `EndMs` is clamped to `next.StartMs - 100`.  In the Go loop
the element at `i-1` is only written at step `i`, and `StartMs` is
never written, so the imperative pass equals this recursion. -/
def monotonicityPass : List Subtitle → List Subtitle
  | [] => []
  | [a] => [a]
  | a :: b :: rest =>
    (if a.EndMs > b.StartMs then { a with EndMs := b.StartMs - 100 } else a)
      :: monotonicityPass (b :: rest)

/-- Record of one iteration of the batch loop: the batch's start index,
its end index (exclusive), and the decoded response for it. -/
structure BatchRec where
  start : Nat
  stop : Nat
  resp : List SubtitleInput
deriving DecidableEq

/-- The batch loop of `CreateSubtitles` (lines 68-102).  `oracle s`
stands for the decoded candidate array the service returns for the
batch starting at index `s` (the request is a pure function of the
batch slice, hence of `s` for a fixed transcript).  `fuel` bounds the
number of iterations; `none` means the loop did not finish within
`fuel` steps.  Each iteration records a `BatchRec` in the trace. -/
def createSubtitlesLoop (oracle : Nat → List SubtitleInput) (wordTimings : List WordTiming) :
    Nat → Nat → List Subtitle → List BatchRec → Option (List Subtitle × List BatchRec)
  | 0, _, _, _ => none
  | fuel + 1, startIndex, acc, trace =>
    if startIndex < wordTimings.length then
      let endIndex := min (startIndex + batchSize) wordTimings.length
      let resp := oracle startIndex
      let subs := (parseBatchResponse resp startIndex).1
      let lastWordIndex := (parseBatchResponse resp startIndex).2
      let acc2 := acc ++ subs
      let trace2 := trace ++ [⟨startIndex, endIndex, resp⟩]
      if endIndex - startIndex < batchSize then some (acc2, trace2)
      else createSubtitlesLoop oracle wordTimings fuel lastWordIndex acc2 trace2
    else some (acc, trace)

/-- `CreateSubtitles`: run the batch loop from start index 0, then
apply the global monotonicity pass to the concatenated subtitles. -/
def CreateSubtitles (oracle : Nat → List SubtitleInput) (wordTimings : List WordTiming)
    (fuel : Nat) : Option (List Subtitle) :=
  (createSubtitlesLoop oracle wordTimings fuel 0 [] []).map fun p => monotonicityPass p.1

/-- Step 1 of the spec's three-step end-time algorithm (spec 4.4,
written from the spec's words, to be compared with `processOne`):
tentative `end_ms = last_word_ms + 1500` when `last_word_ms > 0`,
else 0. -/
def specTentativeEnd (sub : SubtitleInput) : Int :=
  if sub.LastWordStartMs > 0 then sub.LastWordStartMs + 1500 else 0

/-- Step 2 of the spec's three-step algorithm: if a following candidate
exists, `min(tentative_end_ms_or_inf, next.start_ms - 100)` with the
tentative value treated as infinity when it is 0. -/
def specClampedEnd (sub : SubtitleInput) (next? : Option SubtitleInput) : Int :=
  match next? with
  | some nxt =>
    if specTentativeEnd sub = 0 then nxt.StartMs - 100
    else min (specTentativeEnd sub) (nxt.StartMs - 100)
  | none => specTentativeEnd sub

/-- Step 3 of the spec's three-step algorithm: if the result is still
at most `start_ms`, or the span is under 1000 ms, force
`end_ms = start_ms + 1000`. -/
def specEndMs (sub : SubtitleInput) (next? : Option SubtitleInput) : Int :=
  let c := specClampedEnd sub next?
  if c ≤ sub.StartMs ∨ c - sub.StartMs < 1000 then sub.StartMs + 1000 else c

/-- The reconciler as described by the spec's three-step algorithm:
per candidate, start and text copied, end computed by `specEndMs`. -/
def specProcess : List SubtitleInput → List Subtitle
  | [] => []
  | sub :: rest => ⟨sub.StartMs, specEndMs sub rest.head?, sub.Text⟩ :: specProcess rest

/-- The index intervals consumed by the batches of a trace under the
declared-continuation advancement rule: each batch consumes the ids
from its start index up to the next batch's start index, and the final
batch consumes up to `n` (the transcript length).  Each interval is
given as the list of ids it contains. -/
def consumedRanges (n : Nat) : List BatchRec → List (List Nat)
  | [] => []
  | [b] => [List.range' b.start (n - b.start)]
  | b :: b2 :: rest => List.range' b.start (b2.start - b.start) :: consumedRanges n (b2 :: rest)

/-- The id ranges covered by the emitted subtitles of one batch, given
the batch's end index `stop`: each candidate covers the ids from its
`st_id` up to the next candidate's `st_id`, and the last candidate
covers up to `stop`.  Ranges are half-open pairs `(lo, hi)`. -/
def candRanges (stop : Nat) : List SubtitleInput → List (Nat × Nat)
  | [] => []
  | [c] => [(c.StartWordIndex, stop)]
  | c :: c2 :: rest => (c.StartWordIndex, c2.StartWordIndex) :: candRanges stop (c2 :: rest)

/-- How many emitted-subtitle id ranges of a trace contain the id. -/
def coverageCount (trace : List BatchRec) (id : Nat) : Nat :=
  ((trace.map fun b => candRanges b.stop b.resp).flatten.filter
    fun r => decide (r.1 ≤ id) && decide (id < r.2)).length

/-- Whitespace predicate modelling Go's `unicode.IsSpace`, i.e. the
Unicode White_Space property that `strings.TrimSpace` trims: tab
through carriage return, space, next line (U+0085), no-break space
(U+00A0), ogham space mark (U+1680), the Zs block U+2000-U+200A, line
and paragraph separators (U+2028, U+2029), narrow no-break space
(U+202F), medium mathematical space (U+205F) and ideographic space
(U+3000). -/
def goIsSpace (c : Char) : Bool :=
  (0x09 ≤ c.toNat && c.toNat ≤ 0x0d) || c.toNat == 0x20 || c.toNat == 0x85 ||
  c.toNat == 0xa0 || c.toNat == 0x1680 ||
  (0x2000 ≤ c.toNat && c.toNat ≤ 0x200a) || c.toNat == 0x2028 ||
  c.toNat == 0x2029 || c.toNat == 0x202f || c.toNat == 0x205f || c.toNat == 0x3000

/-- Go `strings.TrimSpace`: drop whitespace from both ends. -/
def trimSpace (s : List Char) : List Char :=
  ((s.dropWhile goIsSpace).reverse.dropWhile goIsSpace).reverse

/-- The closing/opening fence marker three backticks. -/
def fence : List Char := ['`', '`', '`']

/-- The opening fence marker with the json language tag. -/
def fenceJson : List Char := ['`', '`', '`', 'j', 's', 'o', 'n']

/-- The four characters of the json language tag. -/
def jsonTag : List Char := ['j', 's', 'o', 'n']

/-- Go `strings.LastIndex`: index of the last occurrence of `p` in the
string, `none` when there is none (Go returns -1). -/
def lastIndexOf : List Char → List Char → Option Nat
  | [], p => if p.isEmpty then some 0 else none
  | c :: rest, p =>
    match lastIndexOf rest p with
    | some j => some (j + 1)
    | none => if p.isPrefixOf (c :: rest) then some 0 else none

/-- `cleanJsonContent` (lines 322-336): trim whitespace; if the text
starts with the json-tagged fence strip it and cut at the last fence
occurrence; else if it starts with a bare fence do the same; finally
trim whitespace again.  `strings.TrimPrefix` is `List.drop` of the
marker length here because it is only applied under the corresponding
positive `strings.HasPrefix` test. -/
def cleanJsonContent (s : List Char) : List Char :=
  let s1 := trimSpace s
  if fenceJson.isPrefixOf s1 then
    let s2 := s1.drop fenceJson.length
    let s3 :=
      match lastIndexOf s2 fence with
      | some idx => s2.take idx
      | none => s2
    trimSpace s3
  else if fence.isPrefixOf s1 then
    let s2 := s1.drop fence.length
    let s3 :=
      match lastIndexOf s2 fence with
      | some idx => s2.take idx
      | none => s2
    trimSpace s3
  else
    trimSpace s1

/-- A transcript of exactly 300 words (one full batch). -/
def wts300 : List WordTiming := (List.range 300).map fun i => ⟨i, "w", 0⟩

/-- A transcript of 301 words (one full batch plus one word). -/
def wts301 : List WordTiming := (List.range 301).map fun i => ⟨i, "w", 0⟩

/-- A service that always reports an empty candidate array. -/
def emptyOracle : Nat → List SubtitleInput := fun _ => []

/-- A service whose single candidate for the batch at `s` declares
`st_id = min (s + 150) 300`, which always lies inside the batch shown
to it for a 301-word transcript. -/
def oracle301 : Nat → List SubtitleInput :=
  fun s => [⟨min (s + 150) 300, 0, 0, "t", false⟩]

/-- First batch response of the double-coverage scenario: three
candidates starting at ids 0, 150 and 295 of the 300-word batch. -/
def respA : List SubtitleInput :=
  [⟨0, 0, 0, "a", false⟩, ⟨150, 0, 0, "b", false⟩, ⟨295, 0, 0, "c", false⟩]

/-- Continuation batch response of the double-coverage scenario: one
candidate re-emitting the subtitle that starts at id 295. -/
def respB : List SubtitleInput := [⟨295, 0, 0, "d", false⟩]

/-- Service for the double-coverage scenario on `wts301`. -/
def oracleCx : Nat → List SubtitleInput :=
  fun s => if s = 0 then respA else if s = 295 then respB else []

/-- The spec's section 8 overlap scenario: two candidates with
start times 1000 and 1050 and no last-word information. -/
def c5inputs : List SubtitleInput :=
  [⟨0, 1000, 0, "a", false⟩, ⟨1, 1050, 0, "b", false⟩]

/-- Helper: one step of the reconciler agrees with the spec's
three-step end-time computation. -/
theorem processOne_eq_spec (sub : SubtitleInput) (next? : Option SubtitleInput) :
    processOne sub next? = ⟨sub.StartMs, specEndMs sub next?, sub.Text⟩ := by
  rcases next? with _ | nxt
  · simp only [processOne, specEndMs, specClampedEnd, specTentativeEnd, min_def,
      Subtitle.mk.injEq, true_and, and_true]
  · simp only [processOne, specEndMs, specClampedEnd, specTentativeEnd, min_def,
      Subtitle.mk.injEq, true_and, and_true]
    split_ifs <;> first | rfl | omega

/-- C10: the per-batch reconciler returns exactly one Subtitle per
candidate, in order, copying `st_ms` into `start_ms` and the text
unchanged. -/
theorem reconciler_one_subtitle_per_candidate (l : List SubtitleInput) :
    (processSubtitles l).map (fun s => (s.StartMs, s.Text)) =
      l.map (fun c => (c.StartMs, c.Text)) ∧
    (processSubtitles l).length = l.length := by
  induction l with
  | nil => exact ⟨rfl, rfl⟩
  | cons a t ih =>
    exact ⟨by simp [processSubtitles, processOne_eq_spec, ih.1],
      by simp [processSubtitles, ih.2]⟩

/-- Helper: every subtitle the reconciler emits spans at least 1000 ms. -/
theorem processOne_min_duration (sub : SubtitleInput) (next? : Option SubtitleInput) :
    1000 ≤ (processOne sub next?).EndMs - (processOne sub next?).StartMs := by
  rcases next? with _ | nxt <;> simp only [processOne] <;> split_ifs <;> omega

/-- C7: every Subtitle produced directly by the per-batch reconciler
satisfies `end_ms - start_ms ≥ 1000`. -/
theorem reconciler_min_duration (l : List SubtitleInput) :
    ∀ s ∈ processSubtitles l, 1000 ≤ s.EndMs - s.StartMs := by
  induction l with
  | nil => intro s hs; simp [processSubtitles] at hs
  | cons a t ih =>
    intro s hs
    simp only [processSubtitles, List.mem_cons] at hs
    rcases hs with h | h
    · subst h; exact processOne_min_duration a t.head?
    · exact ih s h

/-- Witness for C7 at a concrete input: the single candidate with
`st_ms = 0` and no last-word time yields the subtitle `(0, 1000)`. -/
theorem reconciler_min_duration_witness :
    1000 ≤ (⟨0, 1000, "a"⟩ : Subtitle).EndMs - (⟨0, 1000, "a"⟩ : Subtitle).StartMs :=
  reconciler_min_duration [⟨0, 0, 0, "a", false⟩] ⟨0, 1000, "a"⟩ (by decide)

/-- C6: the reconciler computes every end time exactly by the spec's
three-step algorithm (tentative lookahead, gap clamp with 0 treated as
infinity, minimum-duration fallback). -/
theorem reconciler_matches_three_step_algorithm (l : List SubtitleInput) :
    processSubtitles l = specProcess l := by
  induction l with
  | nil => rfl
  | cons a t ih => simp [processSubtitles, specProcess, processOne_eq_spec, ih]

/-- Helper: the monotonicity pass keeps the head's start time and text,
and returns a cons for a cons. -/
theorem monotonicityPass_cons (x : Subtitle) (xs : List Subtitle) :
    ∃ y ys, monotonicityPass (x :: xs) = y :: ys ∧
      y.StartMs = x.StartMs ∧ y.Text = x.Text := by
  cases xs with
  | nil => exact ⟨x, [], rfl, rfl, rfl⟩
  | cons b r =>
    refine ⟨_, _, rfl, ?_, ?_⟩ <;> split <;> rfl

/-- C4: after the global monotonicity pass, adjacent subtitles satisfy
`end_ms ≤ next.start_ms` (overlapping entries having been clamped to
`next.start_ms - 100`). -/
theorem track_no_overlap_after_pass (l : List Subtitle) :
    List.Chain' (fun a b => a.EndMs ≤ b.StartMs) (monotonicityPass l) := by
  induction l with
  | nil => simp [monotonicityPass]
  | cons a t ih =>
    cases t with
    | nil => simp [monotonicityPass]
    | cons b r =>
      obtain ⟨y, ys, hEq, hStart, _⟩ := monotonicityPass_cons b r
      have hPass : monotonicityPass (a :: b :: r) =
          (if a.EndMs > b.StartMs then { a with EndMs := b.StartMs - 100 } else a)
            :: monotonicityPass (b :: r) := rfl
      rw [hPass, hEq, List.chain'_cons]
      constructor
      · rw [hStart]; split <;> simp_all
      · rw [← hEq]; exact ih

/-- C9: the global pass is a frame on everything but `end_ms`: it
preserves length, every `start_ms` and every text, and only ever
decreases `end_ms`. -/
theorem pass_changes_only_end_ms_downward (l : List Subtitle) :
    (monotonicityPass l).length = l.length ∧
    (monotonicityPass l).map Subtitle.StartMs = l.map Subtitle.StartMs ∧
    (monotonicityPass l).map Subtitle.Text = l.map Subtitle.Text ∧
    List.Forall₂ (fun a b => b.EndMs ≤ a.EndMs) l (monotonicityPass l) := by
  induction l with
  | nil => simp [monotonicityPass]
  | cons a t ih =>
    cases t with
    | nil => simp [monotonicityPass]
    | cons b r =>
      have hPass : monotonicityPass (a :: b :: r) =
          (if a.EndMs > b.StartMs then { a with EndMs := b.StartMs - 100 } else a)
            :: monotonicityPass (b :: r) := rfl
      obtain ⟨hLen, hStart, hText, hEnd⟩ := ih
      refine ⟨?_, ?_, ?_, ?_⟩
      · rw [hPass]; simp [hLen]
      · rw [hPass]; simp only [List.map_cons, hStart]
        split <;> rfl
      · rw [hPass]; simp only [List.map_cons, hText]
        split <;> rfl
      · rw [hPass, List.forall₂_cons]
        refine ⟨?_, hEnd⟩
        split
        · simp_all; omega
        · simp_all

/-- Helper: on a transcript of exactly 300 words, a service that keeps
returning empty candidate arrays leaves the start index at 0 forever,
so the loop exhausts any amount of fuel. -/
theorem emptyOracle_loop_stuck :
    ∀ fuel acc trace,
      createSubtitlesLoop emptyOracle wts300 fuel 0 acc trace = none := by
  intro fuel
  induction fuel with
  | zero => intro acc trace; rfl
  | succ n ih =>
    intro acc trace
    have hlen : wts300.length = 300 := by simp [wts300]
    rw [createSubtitlesLoop, hlen]
    norm_num [batchSize, emptyOracle, parseBatchResponse, parseLastWordIndex,
      processSubtitles]
    exact ih _ _

/-- C1 (code bug): `parseBatchResponse` answers `lastWordIndex =
startIndex` for an empty candidate array, not `startIndex + 300`; as a
consequence the loop re-reads the same full batch forever (here: fuel
5 exhausted on a 300-word transcript with empty responses). -/
theorem empty_response_does_not_advance :
    parseLastWordIndex [] 0 = 0 ∧
    parseLastWordIndex [] 0 ≠ 0 + batchSize ∧
    createSubtitlesLoop emptyOracle wts300 5 0 [] [] = none :=
  ⟨rfl, by decide, emptyOracle_loop_stuck 5 [] []⟩

/-- C2 counterexample: there is a transcript (300 words) and a sequence
of well-formed service responses (always the empty candidate array)
for which the batch loop of CreateSubtitles never terminates. -/
theorem batch_loop_can_run_forever :
    ¬ ∃ fuel, (createSubtitlesLoop emptyOracle wts300 fuel 0 [] []).isSome := by
  rintro ⟨fuel, h⟩
  rw [emptyOracle_loop_stuck fuel [] []] at h
  simp at h

/-- Helper: if every response to a full-size batch strictly advances
the start index, the loop finishes once the fuel exceeds the number of
words not yet passed. -/
theorem loop_terminates_of_advancing (oracle : Nat → List SubtitleInput)
    (wts : List WordTiming)
    (hadv : ∀ s, s + batchSize ≤ wts.length → s < parseLastWordIndex (oracle s) s) :
    ∀ k s acc trace, wts.length ≤ s + k →
      (createSubtitlesLoop oracle wts (k + 1) s acc trace).isSome := by
  intro k
  induction k with
  | zero =>
    intro s acc trace hs
    have : ¬ s < wts.length := by omega
    simp [createSubtitlesLoop, this]
  | succ n ih =>
    intro s acc trace hs
    by_cases h : s < wts.length
    · rw [createSubtitlesLoop]
      rw [if_pos h]
      by_cases hb : min (s + batchSize) wts.length - s < batchSize
      · rw [if_pos hb]; simp
      · rw [if_neg hb]
        apply ih
        have hfull : s + batchSize ≤ wts.length := by
          rcases Nat.le_total (s + batchSize) wts.length with hle | hle
          · exact hle
          · rw [min_eq_right hle] at hb; omega
        have hadvs := hadv s hfull
        have hsame : (parseBatchResponse (oracle s) s).2 = parseLastWordIndex (oracle s) s :=
          rfl
        rw [hsame]
        omega
    · simp [createSubtitlesLoop, h]

/-- C2 amended: the batch loop terminates for every transcript and
every response sequence in which each full-size batch's response
strictly advances the start index (its last candidate's `st_id`
exceeds the batch's start index); without that assumption the loop can
run forever. -/
theorem batch_loop_terminates_of_advancing (oracle : Nat → List SubtitleInput)
    (wts : List WordTiming)
    (hadv : ∀ s, s + batchSize ≤ wts.length → s < parseLastWordIndex (oracle s) s) :
    ∃ fuel, (createSubtitlesLoop oracle wts fuel 0 [] []).isSome :=
  ⟨wts.length + 1,
    loop_terminates_of_advancing oracle wts hadv wts.length 0 [] [] (by omega)⟩

/-- Witness for the amended C2: the 301-word transcript with a service
that always advances by 150 words (capped at id 300) terminates. -/
theorem batch_loop_terminates_witness :
    ∃ fuel, (createSubtitlesLoop oracle301 wts301 fuel 0 [] []).isSome :=
  batch_loop_terminates_of_advancing oracle301 wts301 (by
    intro s hs
    have hlen : wts301.length = 301 := by simp [wts301]
    rw [hlen] at hs
    simp only [oracle301, parseLastWordIndex, List.getLast?_singleton, batchSize] at hs ⊢
    omega)

/-- Helper: bounds on the advanced index, given that every response's
last candidate references an id inside the batch it was shown. -/
theorem parseLastWordIndex_bounds (oracle : Nat → List SubtitleInput)
    (wts : List WordTiming)
    (hid : ∀ s c, s < wts.length → (oracle s).getLast? = some c →
      s ≤ c.StartWordIndex ∧ c.StartWordIndex < min (s + batchSize) wts.length)
    (s : Nat) (h : s < wts.length) :
    s ≤ parseLastWordIndex (oracle s) s ∧
      parseLastWordIndex (oracle s) s ≤ wts.length := by
  unfold parseLastWordIndex
  cases hg : (oracle s).getLast? with
  | none => exact ⟨le_refl s, le_of_lt h⟩
  | some c =>
    obtain ⟨h1, h2⟩ := hid s c h hg
    have h3 : c.StartWordIndex < wts.length := lt_of_lt_of_le h2 (min_le_right _ _)
    exact ⟨h1, le_of_lt h3⟩

/-- Helper: any successful run appends to the trace a (possibly empty)
list of batch records whose consumed index intervals, under the
declared-continuation advancement rule, tile the ids from the entry
index to the end of the transcript. -/
theorem loop_trace_consumed (oracle : Nat → List SubtitleInput) (wts : List WordTiming)
    (hid : ∀ s c, s < wts.length → (oracle s).getLast? = some c →
      s ≤ c.StartWordIndex ∧ c.StartWordIndex < min (s + batchSize) wts.length) :
    ∀ fuel s acc tr0 subs tr,
      createSubtitlesLoop oracle wts fuel s acc tr0 = some (subs, tr) →
      ∃ rest, tr = tr0 ++ rest ∧
        ((rest = [] ∧ wts.length ≤ s) ∨
          (∃ b more, rest = b :: more ∧ b.start = s ∧
            (consumedRanges wts.length rest).flatten =
              List.range' s (wts.length - s))) := by
  intro fuel
  induction fuel with
  | zero => intro s acc tr0 subs tr hrun; cases hrun
  | succ n ih =>
    intro s acc tr0 subs tr hrun
    rw [createSubtitlesLoop] at hrun
    by_cases h : s < wts.length
    · rw [if_pos h] at hrun
      by_cases hb : min (s + batchSize) wts.length - s < batchSize
      · rw [if_pos hb] at hrun
        obtain ⟨-, htr⟩ := Prod.mk.injEq .. ▸ Option.some.injEq .. ▸ hrun
        refine ⟨[⟨s, min (s + batchSize) wts.length, oracle s⟩], htr.symm, Or.inr ?_⟩
        refine ⟨_, [], rfl, rfl, ?_⟩
        simp [consumedRanges]
      · rw [if_neg hb] at hrun
        obtain ⟨rest, hEq, hcase⟩ := ih _ _ _ _ _ hrun
        have hpl := parseLastWordIndex_bounds oracle wts hid s h
        have hsame : (parseBatchResponse (oracle s) s).2 =
            parseLastWordIndex (oracle s) s := rfl
        rcases hcase with ⟨hnil, hlen⟩ | ⟨b2, more, hrest, hstart, hflat⟩
        · exfalso
          rw [hsame] at hlen
          cases hg : (oracle s).getLast? with
          | none =>
            have hps : parseLastWordIndex (oracle s) s = s := by
              simp [parseLastWordIndex, hg]
            omega
          | some c =>
            have hps : parseLastWordIndex (oracle s) s = c.StartWordIndex := by
              simp [parseLastWordIndex, hg]
            obtain ⟨-, h2⟩ := hid s c h hg
            have h3 := lt_of_lt_of_le h2 (min_le_right _ _)
            omega
        · refine ⟨⟨s, min (s + batchSize) wts.length, oracle s⟩ :: rest,
            by rw [hEq]; simp, Or.inr ?_⟩
          refine ⟨_, rest, rfl, rfl, ?_⟩
          rw [hrest]
          simp only [consumedRanges, List.flatten_cons]
          rw [← hrest, hstart, hflat, hsame]
          have hle1 : s ≤ parseLastWordIndex (oracle s) s := hpl.1
          have hle2 : parseLastWordIndex (oracle s) s ≤ wts.length := hpl.2
          have hap := List.range'_append_1 s (parseLastWordIndex (oracle s) s - s)
            (wts.length - parseLastWordIndex (oracle s) s)
          rw [Nat.add_sub_cancel' hle1] at hap
          rw [hap]
          congr 1
          omega
    · rw [if_neg h] at hrun
      obtain ⟨-, htr⟩ := Prod.mk.injEq .. ▸ Option.some.injEq .. ▸ hrun
      exact ⟨[], by rw [htr]; simp, Or.inl ⟨rfl, le_of_not_lt h⟩⟩

/-- C3 amended: for every terminating run whose responses always
reference ids inside the batch shown, the per-batch consumed index
intervals under the declared-continuation advancement rule cover every
WordTiming id exactly once and in order (their concatenation is
exactly `0, 1, ..., N-1`).  The ranges covered by the emitted
subtitles, by contrast, can double-cover (see the counterexample). -/
theorem consumed_ranges_tile (oracle : Nat → List SubtitleInput) (wts : List WordTiming)
    (hid : ∀ s c, s < wts.length → (oracle s).getLast? = some c →
      s ≤ c.StartWordIndex ∧ c.StartWordIndex < min (s + batchSize) wts.length)
    (fuel : Nat) (subs : List Subtitle) (tr : List BatchRec)
    (hrun : createSubtitlesLoop oracle wts fuel 0 [] [] = some (subs, tr)) :
    (consumedRanges wts.length tr).flatten = List.range wts.length := by
  obtain ⟨rest, hEq, hcase⟩ :=
    loop_trace_consumed oracle wts hid fuel 0 [] [] subs tr hrun
  simp only [List.nil_append] at hEq
  subst hEq
  rcases hcase with ⟨hnil, hlen⟩ | ⟨b, more, hrest, hstart, hflat⟩
  · subst hnil
    have h0 : wts.length = 0 := by omega
    simp [consumedRanges, h0]
  · rw [hflat, List.range_eq_range']
    simp

set_option maxRecDepth 40000 in
/-- Witness for the amended C3: the 301-word transcript with the
in-range advancing service has a terminating run whose consumed
intervals concatenate to exactly the ids 0..300. -/
theorem consumed_ranges_tile_witness :
    ∃ subs tr, createSubtitlesLoop oracle301 wts301 2 0 [] [] = some (subs, tr) ∧
      (consumedRanges wts301.length tr).flatten = List.range wts301.length := by
  refine ⟨_, _, rfl, ?_⟩
  apply consumed_ranges_tile oracle301 wts301 ?_ 2 _ _ rfl
  intro s c hs hg
  have hlen : wts301.length = 301 := by simp [wts301]
  rw [hlen] at hs ⊢
  simp only [oracle301, List.getLast?_singleton, Option.some.injEq] at hg
  subst hg
  simp only [batchSize]
  omega

set_option maxRecDepth 40000 in
/-- C3 counterexample: a concrete run (301 words; first batch declares
candidates at ids 0, 150, 295; continuation batch re-emits the
candidate at id 295) in which id 295 is covered by emitted subtitles
of two different batches, so the emitted coverage is not exactly-once. -/
theorem emitted_ranges_double_cover :
    createSubtitlesLoop oracleCx wts301 2 0 [] [] =
      some ([⟨0, 1000, "a"⟩, ⟨0, 1000, "b"⟩, ⟨0, 1000, "c"⟩, ⟨0, 1000, "d"⟩],
        [⟨0, 300, respA⟩, ⟨295, 301, respB⟩]) ∧
    coverageCount [⟨0, 300, respA⟩, ⟨295, 301, respB⟩] 295 = 2 ∧
    ¬ (∀ id, id < wts301.length →
        coverageCount [⟨0, 300, respA⟩, ⟨295, 301, respB⟩] id = 1) := by
  refine ⟨by decide, by decide, fun h => ?_⟩
  have h295 : (295 : Nat) < wts301.length := by simp [wts301]
  exact absurd (h 295 h295) (by decide)

/-- Helper: the monotonicity pass never changes the last element. -/
theorem monotonicityPass_getLast (l : List Subtitle) :
    (monotonicityPass l).getLast? = l.getLast? := by
  induction l with
  | nil => rfl
  | cons a t ih =>
    cases t with
    | nil => rfl
    | cons b r =>
      obtain ⟨y, ys, hEq, -, -⟩ := monotonicityPass_cons b r
      have hPass : monotonicityPass (a :: b :: r) =
          (if a.EndMs > b.StartMs then { a with EndMs := b.StartMs - 100 } else a)
            :: monotonicityPass (b :: r) := rfl
      rw [hPass, hEq, List.getLast?_cons_cons, ← hEq, ih, List.getLast?_cons_cons]

/-- C5 counterexample (the spec's section 8 scenario): candidates with
start times 1000 and 1050 reconcile to spans `(1000, 2000)` and
`(1050, 2050)`; the global pass then clamps the first `end_ms` to
`1050 - 100 = 950 < 1000`, so the final track violates both
`end_ms > start_ms` and the 1000 ms minimum. -/
theorem final_track_min_duration_violated :
    monotonicityPass (processSubtitles c5inputs) =
      [⟨1000, 950, "a"⟩, ⟨1050, 2050, "b"⟩] ∧
    ¬ (∀ s ∈ monotonicityPass (processSubtitles c5inputs),
        s.StartMs < s.EndMs ∧ 1000 ≤ s.EndMs - s.StartMs) := by
  exact ⟨by decide, by decide⟩

/-- C5 amended: subtitles straight out of the reconciler all satisfy
`end_ms - start_ms ≥ 1000`; after the Track Assembler's global pass
every subtitle either still satisfies `end_ms > start_ms` or was
overlap-clamped, in which case its `end_ms` equals the next subtitle's
`start_ms - 100` (and may be at or below its own `start_ms`); the last
subtitle always keeps `end_ms > start_ms`. -/
theorem pass_end_gt_start_or_clamped (l : List Subtitle)
    (h : ∀ s ∈ l, s.StartMs + 1000 ≤ s.EndMs) :
    List.Chain' (fun a b => a.StartMs < a.EndMs ∨ a.EndMs = b.StartMs - 100)
      (monotonicityPass l) ∧
    ∀ s, (monotonicityPass l).getLast? = some s → s.StartMs < s.EndMs := by
  constructor
  · induction l with
    | nil => simp [monotonicityPass]
    | cons a t ih =>
      cases t with
      | nil => simp [monotonicityPass]
      | cons b r =>
        obtain ⟨y, ys, hEq, hStart, -⟩ := monotonicityPass_cons b r
        have hPass : monotonicityPass (a :: b :: r) =
            (if a.EndMs > b.StartMs then { a with EndMs := b.StartMs - 100 } else a)
              :: monotonicityPass (b :: r) := rfl
        rw [hPass, hEq, List.chain'_cons]
        constructor
        · rw [hStart]
          split
          · exact Or.inr rfl
          · have ha := h a (by simp)
            omega
        · rw [← hEq]
          exact ih fun s hs => h s (List.mem_cons_of_mem a hs)
  · intro s hs
    rw [monotonicityPass_getLast] at hs
    have := h s (List.mem_of_getLast?_eq_some hs)
    omega

/-- Witness for the amended C5: the two reconciled spans of the
section 8 scenario satisfy the clamped-or-positive-span property. -/
theorem pass_end_gt_start_or_clamped_witness :
    List.Chain' (fun a b => a.StartMs < a.EndMs ∨ a.EndMs = b.StartMs - 100)
      (monotonicityPass [⟨1000, 2000, "a"⟩, ⟨1050, 2050, "b"⟩]) ∧
    ∀ s, (monotonicityPass [⟨1000, 2000, "a"⟩, ⟨1050, 2050, "b"⟩]).getLast? = some s →
      s.StartMs < s.EndMs :=
  pass_end_gt_start_or_clamped [⟨1000, 2000, "a"⟩, ⟨1050, 2050, "b"⟩] (by decide)

/-- Helper: the first element surviving dropWhile fails the predicate. -/
theorem dropWhile_head_false (p : Char → Bool) :
    ∀ (l : List Char) (c : Char), (l.dropWhile p).head? = some c → p c = false := by
  intro l
  induction l with
  | nil => intro c h; cases h
  | cons a t ih =>
    intro c h
    rw [List.dropWhile_cons] at h
    by_cases hp : p a
    · rw [if_pos hp] at h; exact ih c h
    · rw [if_neg hp] at h
      simp only [List.head?_cons, Option.some.injEq] at h
      subst h
      simpa using hp

/-- Helper: a list whose first and last characters are not whitespace
is unchanged by trimSpace. -/
theorem trimSpace_eq_self (s : List Char)
    (h1 : ∀ c, s.head? = some c → goIsSpace c = false)
    (h2 : ∀ c, s.getLast? = some c → goIsSpace c = false) :
    trimSpace s = s := by
  have hd : s.dropWhile goIsSpace = s := by
    cases s with
    | nil => rfl
    | cons a t =>
      rw [List.dropWhile_cons, if_neg]
      simp [h1 a rfl]
  unfold trimSpace
  rw [hd]
  cases hrev : s.reverse with
  | nil =>
    rw [List.reverse_eq_nil_iff] at hrev
    subst hrev; rfl
  | cons a t =>
    have ha : goIsSpace a = false := by
      apply h2
      rw [← List.head?_reverse, hrev]; rfl
    simp only [List.dropWhile_cons, ha, Bool.false_eq_true, if_false]
    rw [← hrev, List.reverse_reverse]

/-- Helper: trimSpace is idempotent. -/
theorem trimSpace_idem (s : List Char) : trimSpace (trimSpace s) = trimSpace s := by
  apply trimSpace_eq_self
  · intro c hc
    have hpre : trimSpace s <+: s.dropWhile goIsSpace := by
      have hsuf : (s.dropWhile goIsSpace).reverse.dropWhile goIsSpace <:+
          (s.dropWhile goIsSpace).reverse := List.dropWhile_suffix goIsSpace
      have := List.reverse_prefix.mpr hsuf
      rwa [List.reverse_reverse] at this
    obtain ⟨r, hr⟩ := hpre
    cases he : trimSpace s with
    | nil => rw [he] at hc; cases hc
    | cons x xs =>
      rw [he] at hc hr
      simp only [List.head?_cons, Option.some.injEq] at hc
      subst hc
      apply dropWhile_head_false goIsSpace s x
      rw [← hr]
      rfl
  · intro c hc
    rw [← List.head?_reverse] at hc
    have hrev : (trimSpace s).reverse =
        (s.dropWhile goIsSpace).reverse.dropWhile goIsSpace := by
      unfold trimSpace
      rw [List.reverse_reverse]
    rw [hrev] at hc
    exact dropWhile_head_false goIsSpace (s.dropWhile goIsSpace).reverse c hc

/-- Helper: `strings.LastIndex` of the fence in a text with the fence
appended always points at the appended fence. -/
theorem lastIndexOf_append_self :
    ∀ s : List Char, lastIndexOf (s ++ fence) fence = some s.length := by
  intro s
  induction s with
  | nil => decide
  | cons c rest ih =>
    show lastIndexOf (c :: (rest ++ fence)) fence = some (rest.length + 1)
    rw [lastIndexOf, ih]

/-- Helper: cleaning a json-fenced text yields the trimmed inner text,
for every inner text. -/
theorem clean_fenceJson_wrap (t : List Char) :
    cleanJsonContent (fenceJson ++ (t ++ fence)) = trimSpace t := by
  have htrim : trimSpace (fenceJson ++ (t ++ fence)) = fenceJson ++ (t ++ fence) := by
    apply trimSpace_eq_self
    · intro c hc
      simp only [fenceJson, List.cons_append, List.head?_cons, Option.some.injEq] at hc
      subst hc; decide
    · intro c hc
      simp only [List.getLast?_append, fence, List.getLast?_cons_cons,
        List.getLast?_singleton, Option.or_some, Option.some.injEq] at hc
      subst hc; decide
  have hpos : fenceJson.isPrefixOf (fenceJson ++ (t ++ fence)) = true :=
    List.isPrefixOf_iff_prefix.mpr ( List.prefix_append _ _)
  simp only [cleanJsonContent, htrim, hpos, if_true]
  rw [List.drop_left, lastIndexOf_append_self]
  show trimSpace (List.take t.length (t ++ fence)) = trimSpace t
  rw [List.take_left]

/-- Helper: the json tag cannot become a prefix only thanks to the
appended fence, because the fence consists of backticks. -/
theorem jsonTag_prefix_absorb (t : List Char) (h : jsonTag <+: t ++ fence) :
    jsonTag <+: t := by
  match t with
  | [] => exact absurd h (by decide)
  | [a] =>
    exfalso
    obtain ⟨r, hr⟩ := h
    simp only [jsonTag, fence, List.cons_append, List.nil_append,
      List.singleton_append, List.cons.injEq] at hr
    exact absurd hr.2.1 (by decide)
  | [a, b] =>
    exfalso
    obtain ⟨r, hr⟩ := h
    simp only [jsonTag, fence, List.cons_append, List.nil_append,
      List.cons.injEq] at hr
    exact absurd hr.2.2.1 (by decide)
  | [a, b, c] =>
    exfalso
    obtain ⟨r, hr⟩ := h
    simp only [jsonTag, fence, List.cons_append, List.nil_append,
      List.cons.injEq] at hr
    exact absurd hr.2.2.2.1 (by decide)
  | a :: b :: c :: d :: rest =>
    obtain ⟨r, hr⟩ := h
    simp only [jsonTag, List.cons_append, List.nil_append, List.cons.injEq] at hr
    obtain ⟨ha, hb, hc, hd, -⟩ := hr
    subst ha; subst hb; subst hc; subst hd
    exact ⟨rest, rfl⟩

/-- Helper: cleaning a bare-fenced text yields the trimmed inner text
when the inner text does not itself begin with the json tag. -/
theorem clean_fence_wrap (t : List Char) (hj : jsonTag.isPrefixOf t = false) :
    cleanJsonContent (fence ++ (t ++ fence)) = trimSpace t := by
  have htrim : trimSpace (fence ++ (t ++ fence)) = fence ++ (t ++ fence) := by
    apply trimSpace_eq_self
    · intro c hc
      simp only [fence, List.cons_append, List.head?_cons, Option.some.injEq] at hc
      subst hc; decide
    · intro c hc
      simp only [List.getLast?_append, fence, List.getLast?_cons_cons,
        List.getLast?_singleton, Option.or_some, Option.some.injEq] at hc
      subst hc; decide
  have hnj : fenceJson.isPrefixOf (fence ++ (t ++ fence)) = false := by
    rw [Bool.eq_false_iff]
    intro hc
    rw [ List.isPrefixOf_iff_prefix] at hc
    have hsplit : fence ++ jsonTag <+: fence ++ (t ++ fence) := by
      have he : fence ++ jsonTag = fenceJson := by decide
      rw [he]; exact hc
    rw [ List.prefix_append_right_inj] at hsplit
    have habs := jsonTag_prefix_absorb t hsplit
    rw [← List.isPrefixOf_iff_prefix] at habs
    rw [hj] at habs
    cases habs
  have hpos : fence.isPrefixOf (fence ++ (t ++ fence)) = true :=
    List.isPrefixOf_iff_prefix.mpr ( List.prefix_append _ _)
  simp only [cleanJsonContent, htrim, hnj, hpos, if_true, Bool.false_eq_true,
    if_false]
  rw [List.drop_left, lastIndexOf_append_self]
  show trimSpace (List.take t.length (t ++ fence)) = trimSpace t
  rw [List.take_left]

/-- Helper: when the trimmed text does not begin with a fence,
cleanJsonContent only trims it. -/
theorem clean_of_no_fence (t : List Char)
    (h1 : fence.isPrefixOf (trimSpace t) = false) :
    cleanJsonContent t = trimSpace t := by
  have h2 : fenceJson.isPrefixOf (trimSpace t) = false := by
    rw [Bool.eq_false_iff]
    intro hc
    rw [ List.isPrefixOf_iff_prefix] at hc
    have hf : fence <+: fenceJson := by decide
    have := hf.trans hc
    rw [← List.isPrefixOf_iff_prefix] at this
    rw [h1] at this
    cases this
  simp only [cleanJsonContent, h1, h2, Bool.false_eq_true, if_false]
  exact trimSpace_idem t

/-- C8 counterexample: for the inner text three backticks followed by
x, cleaning the json-fenced form does not equal cleaning the bare
text, because the inner leading fence is itself stripped in the
unfenced parse but survives in the fenced one. -/
theorem fenced_clean_differs :
    cleanJsonContent (fenceJson ++ ((['`', '`', '`', 'x']) ++ fence)) ≠
      cleanJsonContent ['`', '`', '`', 'x'] := by decide

/-- C8 amended: for every response text whose trimmed form does not
itself begin with a fence marker, cleaning the text wrapped in a
leading json-tagged fence and a trailing fence equals cleaning the
bare text; the same holds for a bare leading fence provided the text
does not begin with the characters of the json tag. -/
theorem clean_fenced_eq_clean_unfenced (t : List Char)
    (h1 : fence.isPrefixOf (trimSpace t) = false)
    (h2 : jsonTag.isPrefixOf t = false) :
    cleanJsonContent (fenceJson ++ (t ++ fence)) = cleanJsonContent t ∧
    cleanJsonContent (fence ++ (t ++ fence)) = cleanJsonContent t := by
  rw [clean_of_no_fence t h1, clean_fenceJson_wrap t, clean_fence_wrap t h2]
  exact ⟨rfl, rfl⟩

/-- Witness for the amended C8 at the inner text hi. -/
theorem clean_fenced_eq_clean_unfenced_witness :
    cleanJsonContent (fenceJson ++ ((['h', 'i']) ++ fence)) =
      cleanJsonContent ['h', 'i'] ∧
    cleanJsonContent (fence ++ ((['h', 'i']) ++ fence)) =
      cleanJsonContent ['h', 'i'] :=
  clean_fenced_eq_clean_unfenced ['h', 'i'] (by decide) (by decide)

end YtEnhancer
